import Mathlib

/-!
Verification of the Bruker BCF / SFS reader (`src/lib/parsers/bcf_hype.py`).

The development shallowly embeds the parts of the reader that the claims
touch: the SFS chunk/pointer-table layer (`SFSTreeItem`), the virtual
file-system lookup (`SFS_reader.get_file`), the hypermap pixel decoders and
the accumulation loop of `BCF_reader.py_parse_hypermap`, and the dtype
estimation of `HyperHeader.estimate_map_depth`.  Bytes are modelled as
natural numbers, byte files as total functions `Nat -> Nat`, and numpy
arrays as flat functions `Nat -> Nat`.
-/

namespace BcfHype

/-- Python `-(-a // b)` (ceiling division) for `b > 0`; used as
`_calc_pointer_table_size` and for the output shape `-(-height // dwn)`. -/
def ceilDiv (a b : ℕ) : ℕ := (a + b - 1) / b

/-- A positioned read of `len` bytes at offset `pos` from the backing file
(`fn.seek(pos); fn.read(len)`), with the file modelled as a total byte
function. -/
def readBytes (file : ℕ → ℕ) (pos len : ℕ) : List ℕ :=
  (List.range len).map (fun j => file (pos + j))

/-- Unsigned little-endian value of `n` bytes of `file` starting at `pos`
(`strct_unp('<I', ...)` and relatives). -/
def readLEFile (file : ℕ → ℕ) (pos n : ℕ) : ℕ :=
  (List.range n).foldr (fun i acc => file (pos + i) + 256 * acc) 0

/-- Unsigned little-endian value of the `n` bytes of the list `body`
starting at index `off` (`strct_unp` on a buffer slice); out-of-range
bytes read as zero. -/
def readLEList (body : List ℕ) (off n : ℕ) : ℕ :=
  (List.range n).foldr (fun i acc => body.getD (off + i) 0 + 256 * acc) 0

/-- `np.fromstring(data, dtype=np.uint16)`: group a byte list into
little-endian 16-bit words (an incomplete trailing byte cannot occur on
the even-length inputs numpy accepts). -/
def toU16LE : List ℕ → List ℕ
  | b0 :: b1 :: rest => (b0 + 256 * b1) :: toU16LE rest
  | _ => []

/-- `np.fromstring(data, dtype='>u2')`: group a byte list into big-endian
16-bit words, dropping an incomplete trailing byte. -/
def toBE16 : List ℕ → List ℕ
  | b0 :: b1 :: rest => (256 * b0 + b1) :: toBE16 rest
  | _ => []

/-- `np.fromstring(data, dtype='uint32')`: group a byte list into
little-endian 32-bit words, dropping an incomplete trailing group. -/
def toU32LE : List ℕ → List ℕ
  | b0 :: b1 :: b2 :: b3 :: rest =>
      (b0 + 256 * b1 + 65536 * b2 + 16777216 * b3) :: toU32LE rest
  | _ => []

/-- `np.bincount(xs, minlength=m)`: the result has
`max m (max xs + 1)` entries (`0` entries for empty `xs` and `m = 0`), and
entry `c` counts the occurrences of `c` in `xs`. -/
def npBincount (xs : List ℕ) (minlength : ℕ) : List ℕ :=
  let len := max minlength (xs.foldr (fun a m => max (a + 1) m) 0)
  (List.range len).map (fun c => (xs.filter (fun x => x = c)).length)

/-! ## SFS container layer (`SFSTreeItem`, `SFS_reader`) -/

/-- `SFSTreeItem._calc_pointer_table_size`: `-(-size // usable_chunk)`,
the number of data chunks of a file. -/
def calc_pointer_table_size (size usable : ℕ) : ℕ := ceilDiv size usable

/-- `SFSTreeItem.read_piece(offset, length)`: raw positioned read of the
file payload, stitching the spanned chunks together via the pointer
table. -/
def read_piece (file : ℕ → ℕ) (pointers : List ℕ) (usable offset length : ℕ) :
    List ℕ :=
  let fbIdx := offset / usable
  let fbo := offset % usable
  let lbIdx := (offset + length) / usable
  let lbco := (offset + length) % usable
  if fbIdx ≠ lbIdx then
    readBytes file (pointers.getD fbIdx 0 + fbo) (usable - fbo) ++
    (((pointers.drop (fbIdx + 1)).take (lbIdx - (fbIdx + 1))).map
      (fun p => readBytes file p usable)).flatten ++
    (if lbco > 0 then readBytes file (pointers.getD lbIdx 0) lbco else [])
  else
    readBytes file (pointers.getD fbIdx 0 + fbo) length

/-- `SFSTreeItem._iter_read_chunks()` materialised as the list of the
chunks it yields: full `usable`-sized chunks for all but the last index,
the last chunk truncated to `size % usable` when that is non-zero.
`none` models the `IndexError` that `self.pointers[last - 1]` raises on
an empty pointer table (a zero-sized file). -/
def iter_read_chunks (file : ℕ → ℕ) (pointers : List ℕ) (usable size : ℕ) :
    Option (List (List ℕ)) :=
  let last := calc_pointer_table_size size usable
  if last = 0 then none
  else some
    (((List.range (last - 1)).map
        (fun idx => readBytes file (pointers.getD idx 0) usable)) ++
     [if size % usable ≠ 0 then
        readBytes file (pointers.getD (last - 1) 0) (size % usable)
      else
        readBytes file (pointers.getD (last - 1) 0) usable])

/-- The multi-chunk branch of `SFSTreeItem._fill_pointer_table`: follow the
chain of pointer-table chunks, reading the next chunk index at
`chunksize*chunk + 0x118` and the `usable` table bytes at
`chunksize*chunk + 0x138` of each visited chunk. -/
def collectTableChunks (file : ℕ → ℕ) (chunksize usable : ℕ) :
    ℕ → ℕ → List ℕ
  | 0, _ => []
  | m + 1, chunk =>
      readBytes file (chunksize * chunk + 0x138) usable ++
      collectTableChunks file chunksize usable m
        (readLEFile file (chunksize * chunk + 0x118) 4)

/-- `SFSTreeItem._fill_pointer_table`: gather the raw pointer body, keep
`size_in_chunks` little-endian `u32` entries, and turn each entry `k` into
the absolute offset `k * chunksize + 0x138`. -/
def fill_pointer_table (file : ℕ → ℕ) (chunksize firstChunk size : ℕ) :
    List ℕ :=
  let usable := chunksize - 32
  let sizeInChunks := calc_pointer_table_size size usable
  let nOfChunks := ceilDiv sizeInChunks (usable / 4)
  let tempTable :=
    if nOfChunks > 1 then collectTableChunks file chunksize usable nOfChunks firstChunk
    else readBytes file (chunksize * firstChunk + 0x138) usable
  (toU32LE (tempTable.take (sizeInChunks * 4))).map
    (fun k => k * chunksize + 0x138)

/-! ## Virtual file-system tree and `get_file` -/

/-- A node of the virtual file system `self.vfs`: either an
`SFSTreeItem` leaf (abstracted to an identifier) or a directory
dictionary. -/
inductive VfsNode where
  | file (id : ℕ)
  | dir (entries : List (List Char × VfsNode))

/-- Ordered-dictionary lookup (`item[i]` on a `dict`). -/
def childLookup : List (List Char × VfsNode) → List Char → Option VfsNode
  | [], _ => none
  | (k, v) :: rest, key => if k = key then some v else childLookup rest key

/-- The two exceptions one descent step of `get_file` can raise:
`keyError` when a directory lacks the component (`KeyError`), and
`typeError` when `item[i]` is attempted on a file leaf (`TypeError`,
since `SFSTreeItem` is not subscriptable). -/
inductive SfsLookupError where
  | keyError
  | typeError
deriving DecidableEq

/-- One step `item = item[i]` of the `get_file` loop. -/
def getItemStep : VfsNode → List Char → Except SfsLookupError VfsNode
  | .file _, _ => .error .typeError
  | .dir entries, key =>
      match childLookup entries key with
      | some v => .ok v
      | none => .error .keyError

/-- Python `str.split(sep)` for a one-character separator, on character
lists: always at least one (possibly empty) component. -/
def splitOnChar (sep : Char) : List Char → List (List Char)
  | [] => [[]]
  | c :: rest =>
      match splitOnChar sep rest with
      | [] => if c = sep then [[], []] else [[c]]
      | h1 :: t => if c = sep then [] :: h1 :: t else (c :: h1) :: t

/-- `SFS_reader.get_file(path)`: split `path` on `/` and descend the
tree, propagating the first exception. -/
def get_file (vfs : VfsNode) (path : List Char) : Except SfsLookupError VfsNode :=
  (splitOnChar '/' path).foldl
    (fun acc comp => acc.bind (fun item => getItemStep item comp)) (.ok vfs)

/-- Whether `needle` is a prefix of the second list (character-wise). -/
def startsWithList : List Char → List Char → Bool
  | [], _ => true
  | _ :: _, [] => false
  | a :: as, b :: bs => a = b && startsWithList as bs

/-- Python substring containment `needle in haystack`: `needle` occurs
contiguously in `haystack`. -/
def containsSub (needle : List Char) : List Char → Bool
  | [] => startsWithList needle []
  | c :: rest => startsWithList needle (c :: rest) || containsSub needle rest

/-- `BCF_reader.__init__` index discovery: for each key of the
`EDSDatabase` directory containing the substring `SpectrumData`, record
`int(i[-1])`, the integer value of the last character of the name. -/
def available_indexes (keys : List (List Char)) : List ℕ :=
  (keys.filter (fun i => containsSub ("SpectrumData".toList) i)).map
    (fun i => (i.getLastD '0').toNat - 48)

/-- Python `min(list)` on a non-empty list (`self.def_index`). -/
def pyMinList (l : List ℕ) : ℕ := l.foldl min (l.headD 0)

/-! ## `HyperHeader.estimate_map_depth` and the output dtype -/

/-- The numpy integer dtypes the reader can pick. -/
inductive NpDtype where
  | u8 | u16 | u32 | u64 | i8 | i16 | i32 | i64
deriving DecidableEq

/-- `HyperHeader.estimate_map_depth(index, downsample, for_numpy)`:
`roof = max(sum_eds) // width // height * 2 * downsample * downsample`,
then the dtype ladder of lines 770-795. -/
def estimate_map_depth (sumEdsMax width height downsample : ℕ)
    (forNumpy : Bool) : NpDtype :=
  let roof := sumEdsMax / width / height * 2 * downsample * downsample
  if roof > 0xFF then
    if roof > 0xFFFF then
      if forNumpy ∧ downsample > 1 then
        if roof > 0xEFFFFFFF then .i64 else .i32
      else .u32
    else
      if forNumpy ∧ downsample > 1 then
        if roof > 0xEFFF then .i32 else .i16
      else .u16
  else
    if forNumpy ∧ downsample > 1 then
      if roof > 0xEF then .i16 else .i8
    else .u8

/-- Lines 1153-1156 of `py_parse_hypermap`: if `str(vfa.dtype)[0] == 'i'`
replace the dtype name by `'u' + name`, reinterpreting the bits as the
same-width unsigned type; other dtypes pass through unchanged. -/
def toUnsignedDtype : NpDtype → NpDtype
  | .i8 => .u8
  | .i16 => .u16
  | .i32 => .u32
  | .i64 => .u64
  | d => d

/-- Whether a dtype is one of the unsigned kinds. -/
def isUnsignedDtype : NpDtype → Bool
  | .u8 | .u16 | .u32 | .u64 => true
  | _ => false

/-- Bit width of a dtype. -/
def dtypeWidth : NpDtype → ℕ
  | .u8 | .i8 => 8
  | .u16 | .i16 => 16
  | .u32 | .i32 => 32
  | .u64 | .i64 => 64

/-- The output shape `(-(-height // dwn_factor), -(-width // dwn_factor),
max_chan)` computed at line 1018 of `py_parse_hypermap` and returned by
the `description=True` query. -/
def pyShapeDescription (height width dwn maxChan : ℕ) : ℕ × ℕ × ℕ :=
  (ceilDiv height dwn, ceilDiv width dwn, maxChan)

/-- The shape `vfa.resize((-(-height // dwn_factor), -(-width //
dwn_factor), max_chan))` that the returned array receives at lines
1150-1152. -/
def pyShapeReturned (height width dwn maxChan : ℕ) : ℕ × ℕ × ℕ :=
  (ceilDiv height dwn, ceilDiv width dwn, maxChan)

/-- The working dtype `depth` picked at lines 1012-1014: the python
backend always asks `estimate_map_depth` with `for_numpy=True`. -/
def py_parse_dtype_description (sumEdsMax width height dwn : ℕ) : NpDtype :=
  estimate_map_depth sumEdsMax width height dwn true

/-- The dtype of the array the full decode (`description=False`) returns:
the working dtype after the signed-to-unsigned reinterpretation of lines
1153-1156. -/
def py_parse_dtype_returned (sumEdsMax width height dwn : ℕ) : NpDtype :=
  toUnsignedDtype (py_parse_dtype_description sumEdsMax width height dwn)

/-! ## Pixel decoders of `py_parse_hypermap` -/

/-- `flag == 0` (lines 1060-1064): read the body as little-endian `u16`
words and bincount them with `minlength = chan1 - 1`. -/
def flag0_pixel (data1 : List ℕ) (chan1 : ℕ) : List ℕ :=
  npBincount (toU16LE data1) (chan1 - 1)

/-- `np.fromstring(data1, dtype='<u2').byteswap(True).tostring()`:
swap each adjacent byte pair in place. -/
def swapWords : List ℕ → List ℕ
  | b0 :: b1 :: rest => b1 :: b0 :: swapWords rest
  | _ => []

/-- `.repeat(2)` on the byte stream: duplicate every byte. -/
def repeatTwice (l : List ℕ) : List ℕ := l.flatMap (fun b => [b, b])

/-- The boolean mask `mask[0::6] = mask[5::6] = False`: keep the bytes
whose position is not `0` or `5` modulo `6`. -/
def dropMask6 (l : List ℕ) : List ℕ :=
  (l.enum.filter (fun p => p.1 % 6 ≠ 0 ∧ p.1 % 6 ≠ 5)).map (fun p => p.2)

/-- `exp16[0::2] >>= 4; exp16 &= np.uint16(0x0FFF)`: right-shift the
even-indexed words by 4 and mask every word to 12 bits. -/
def shiftMask (l : List ℕ) : List ℕ :=
  l.enum.map (fun p => (if p.1 % 2 = 0 then p.2 / 16 else p.2) &&& 0x0FFF)

/-- `flag == 1` (lines 1065-1084): the 12-bit unpacking the source
performs on the pixel body — swap each `u16` pair, duplicate every byte,
drop positions 0 and 5 of every 6-byte group of the doubled stream, read
the kept bytes as big-endian `u16` taking `n_of_pulses` words, then shift
and mask. -/
def unpack12bit (data1 : List ℕ) (nPulses : ℕ) : List ℕ :=
  shiftMask ((toBE16 (dropMask6 (repeatTwice (swapWords data1)))).take nPulses)

/-- Modelled from the spec: the `flag == 1` transformation exactly as
§4.4 words it — byte-swap each `u16` word, then drop positions 0 and 5 of
every 6-byte group of the swapped stream (the spec mentions no byte
duplication), read big-endian `u16`, shift the even-indexed words and
mask. The source additionally duplicates every byte before the drop. -/
def unpack12bit_spec (data1 : List ℕ) : List ℕ :=
  shiftMask (toBE16 (dropMask6 (swapWords data1)))

/-- `flag > 1` run loop (lines 1089-1119), recursion fuelled by the
number of remaining bytes (each iteration consumes at least the 2 header
bytes).  `none` models the `KeyError` raised by `st[size_p * 2]` when the
first header byte is not one of `1, 2, 4, 8`. -/
def parseRunsF (body : List ℕ) (theEnd : ℕ) : ℕ → ℕ → Option (List ℕ)
  | 0, offset => if offset < theEnd then none else some []
  | fuel + 1, offset =>
      if offset < theEnd then
        let sizeP := body.getD offset 0
        let channels := body.getD (offset + 1) 0
        if sizeP = 0 then
          (parseRunsF body theEnd fuel (offset + 2)).map
            (fun rest => List.replicate channels 0 ++ rest)
        else if sizeP = 1 then
          -- gain from st[2] = 'B': one byte; then nibble-packed values
          let gain := readLEList body (offset + 2) 1
          let len := ceilDiv channels 2
          let g := ((List.range len).map
              (fun i => body.getD (offset + 3 + i) 0)).flatMap
            (fun b => [b % 16 + gain, b / 16 + gain])
          (parseRunsF body theEnd fuel (offset + 3 + len)).map
            (fun rest => g.take channels ++ rest)
        else if sizeP = 2 ∨ sizeP = 4 ∨ sizeP = 8 then
          -- gain from st[size_p * 2]: size_p bytes, unsigned LE
          let gain := readLEList body (offset + 2) sizeP
          let bw := sizeP / 2
          let temp := (List.range channels).map
            (fun i => readLEList body (offset + 2 + sizeP + i * bw) bw + gain)
          (parseRunsF body theEnd fuel (offset + 2 + sizeP + channels * bw)).map
            (fun rest => temp ++ rest)
        else none
      else some []

/-- The `flag > 1` run loop entered at `offset` with
`the_end = offset + data_size2 - 4`; the byte budget `theEnd - offset`
bounds the number of iterations. -/
def parseRuns (body : List ℕ) (theEnd offset : ℕ) : Option (List ℕ) :=
  parseRunsF body theEnd (theEnd - offset) offset

/-! ## The accumulation loop of `py_parse_hypermap` -/

/-- One parsed pixel record as the accumulation loop sees it: the column
`x_pix`, the header channel count `chan1` and the decoded histogram
list. -/
structure PixelRec where
  x : ℕ
  chanCap : ℕ
  hist : List ℕ
deriving DecidableEq

/-- Lines 1053-1054: `pix_idx = (x_pix // dwn_factor) + ((-(-width //
dwn_factor)) * (line_cnt // dwn_factor))`. -/
def pixIdx (dwn width lineCnt x : ℕ) : ℕ :=
  x / dwn + ceilDiv width dwn * (lineCnt / dwn)

/-- Lines 1142-1149: truncate `chan1` to `max_chan`, then either assign
(`dwn_factor == 1`) or add (`dwn_factor > 1`) `pixel[:chan1]` into the
flat array at `[max_chan*pix_idx, chan1 + max_chan*pix_idx)`. -/
def writePixel (dwn maxChan width lineCnt : ℕ) (vfa : ℕ → ℕ)
    (p : PixelRec) : ℕ → ℕ :=
  let pi := pixIdx dwn width lineCnt p.x
  let chan1 := min p.chanCap maxChan
  fun i =>
    if maxChan * pi ≤ i ∧ i < chan1 + maxChan * pi then
      (if dwn = 1 then 0 else vfa i) + p.hist.getD (i - maxChan * pi) 0
    else vfa i

/-- The nested line/pixel loop of lines 1025-1149, acting on the flat
array, with `lineCnt` the running value of `line_cnt`. -/
def decodeLines (dwn maxChan width : ℕ) :
    ℕ → (ℕ → ℕ) → List (List PixelRec) → (ℕ → ℕ)
  | _, vfa, [] => vfa
  | lineCnt, vfa, line :: rest =>
      decodeLines dwn maxChan width (lineCnt + 1)
        (line.foldl (writePixel dwn maxChan width lineCnt) vfa) rest

/-- `py_parse_hypermap` accumulation: start from
`vfa = np.zeros(shape[0]*shape[1]*shape[2])` and run the loop over all
raster lines. -/
def py_decode (dwn maxChan width : ℕ) (lines : List (List PixelRec)) :
    ℕ → ℕ :=
  decodeLines dwn maxChan width 0 (fun _ => 0) lines

/-- A small concrete virtual file system: a root holding the
`EDSDatabase` directory, which holds the `HeaderData` file. -/
def sampleVfs : VfsNode :=
  .dir [("EDSDatabase".toList, .dir [("HeaderData".toList, .file 0)])]

/-- The flat-array half-open region `[max_chan*pix_idx, chan1 +
max_chan*pix_idx)` that the write of lines 1142-1149 touches for the
pixel event `e = (line_cnt, pixel)`. -/
abbrev covers (dwn maxChan width : ℕ) (e : ℕ × PixelRec) (i : ℕ) : Prop :=
  maxChan * pixIdx dwn width e.1 e.2.x ≤ i ∧
  i < min e.2.chanCap maxChan + maxChan * pixIdx dwn width e.1 e.2.x

/-- The amount a single pixel event deposits at flat index `i`: the
histogram entry when `i` lies in the written region, and zero
otherwise. -/
def contrib (dwn maxChan width lineCnt : ℕ) (p : PixelRec) (i : ℕ) : ℕ :=
  if maxChan * pixIdx dwn width lineCnt p.x ≤ i ∧
      i < min p.chanCap maxChan + maxChan * pixIdx dwn width lineCnt p.x then
    p.hist.getD (i - maxChan * pixIdx dwn width lineCnt p.x) 0
  else 0

/-- The pixel events of the line loop, each paired with the `line_cnt`
value at which the loop processes it. -/
def lineEvents : ℕ → List (List PixelRec) → List (ℕ × PixelRec)
  | _, [] => []
  | lineCnt, line :: rest =>
      line.map (fun p => (lineCnt, p)) ++ lineEvents (lineCnt + 1) rest

/-- Total deposit of a list of pixel events at flat index `i`. -/
def eventsContrib (dwn maxChan width : ℕ) (events : List (ℕ × PixelRec))
    (i : ℕ) : ℕ :=
  (events.map (fun e => contrib dwn maxChan width e.1 e.2 i)).sum

/-- A 4-by-4 raster in which every pixel carries exactly one pulse at
channel 0 (histogram `[1]`, header channel count 1). -/
def lines4x4 : List (List PixelRec) :=
  List.replicate 4 ((List.range 4).map (fun x => ⟨x, 1, [1]⟩))

/-! ## Theorems -/

/-- C10: every successful full decode returns an array of unsigned dtype;
when the working dtype is signed the decoder reinterprets the bits as the
same-width unsigned type, unconditionally on the array contents. -/
theorem C10_returned_dtype_unsigned (sumEdsMax width height dwn : ℕ) :
    isUnsignedDtype (py_parse_dtype_returned sumEdsMax width height dwn) = true ∧
    dtypeWidth (py_parse_dtype_returned sumEdsMax width height dwn) =
      dtypeWidth (py_parse_dtype_description sumEdsMax width height dwn) := by
  unfold py_parse_dtype_returned
  generalize py_parse_dtype_description sumEdsMax width height dwn = d
  cases d <;> exact ⟨rfl, rfl⟩

/-- C8 counterexample: with `downsample = 2` and a summed spectrum whose
roof is small, the `description=True` query reports the signed working
dtype `int8` while the full decode returns a `uint8` array, so the
claimed dtype equality fails. -/
theorem C8_counterexample :
    py_parse_dtype_description 0 1 1 2 = NpDtype.i8 ∧
    py_parse_dtype_returned 0 1 1 2 = NpDtype.u8 ∧
    py_parse_dtype_description 0 1 1 2 ≠ py_parse_dtype_returned 0 1 1 2 := by
  exact ⟨rfl, rfl, by decide⟩

/-- C8 (amended): the shape reported by the description query always
equals the shape of the returned array; the returned dtype is the
unsigned reinterpretation of the described working dtype, and the two
dtypes agree whenever `downsample = 1`. -/
theorem C8_lazy_shape_dtype (sumEdsMax height width dwn maxChan : ℕ) :
    pyShapeDescription height width dwn maxChan =
      pyShapeReturned height width dwn maxChan ∧
    py_parse_dtype_returned sumEdsMax width height dwn =
      toUnsignedDtype (py_parse_dtype_description sumEdsMax width height dwn) ∧
    (dwn = 1 →
      py_parse_dtype_returned sumEdsMax width height dwn =
        py_parse_dtype_description sumEdsMax width height dwn) := by
  refine ⟨rfl, rfl, fun hdwn => ?_⟩
  subst hdwn
  unfold py_parse_dtype_returned py_parse_dtype_description estimate_map_depth
  simp only [gt_iff_lt, lt_self_iff_false, and_false, if_false]
  split_ifs <;> rfl

/-- C8 witness: the amended statement evaluated at a concrete input with
`downsample = 1`. -/
theorem C8_lazy_shape_dtype_witness :
    pyShapeDescription 4 4 1 100 = pyShapeReturned 4 4 1 100 ∧
    py_parse_dtype_returned 1000 4 4 1 = py_parse_dtype_description 1000 4 4 1 :=
  ⟨(C8_lazy_shape_dtype 1000 4 4 1 100).1,
   (C8_lazy_shape_dtype 1000 4 4 1 100).2.2 rfl⟩

/-- C9: the index discovery takes `int(i[-1])`, the last character only,
so the directory key `SpectrumData12` is recorded as index `2`, not `12`,
and the recorded index does not name any existing entry (later
`SpectrumData2` lookups would fail). -/
theorem C9_last_digit_only :
    available_indexes [("SpectrumData12".toList)] = [2] ∧
    available_indexes [("SpectrumData12".toList)] ≠ [12] ∧
    ("SpectrumData2".toList) ∉ [("SpectrumData12".toList)] := by
  refine ⟨rfl, by decide, by decide⟩

/-- C4: for a `flag == 0` body `[0x05,0x00, 0x05,0x00, 0x02,0x00]` with
`chan_capacity = 8` the source bincounts with `minlength = chan1 - 1` and
produces the 7-entry histogram `[0,0,1,0,0,2,0]`, one entry short of the
length-8 histogram the spec prescribes. -/
theorem C4_bincount_short :
    flag0_pixel [0x05, 0x00, 0x05, 0x00, 0x02, 0x00] 8 = [0, 0, 1, 0, 0, 2, 0] ∧
    (flag0_pixel [0x05, 0x00, 0x05, 0x00, 0x02, 0x00] 8).length = 7 ∧
    flag0_pixel [0x05, 0x00, 0x05, 0x00, 0x02, 0x00] 8 ≠
      [0, 0, 1, 0, 0, 2, 0, 0] := by
  refine ⟨rfl, rfl, by decide⟩

/-- C1 counterexample: on the 6-byte `flag == 1` body
`[0x12, 0x34, 0x56, 0x78, 0x9A, 0xBC]` holding `n_of_pulses = 4` packed
12-bit values, the transformation as the spec words it (no byte
duplication) yields only 2 words, while the source's decoding (with
`.repeat(2)`) yields the 4 pulses. -/
theorem C1_counterexample :
    (unpack12bit_spec [0x12, 0x34, 0x56, 0x78, 0x9A, 0xBC]).length = 2 ∧
    unpack12bit [0x12, 0x34, 0x56, 0x78, 0x9A, 0xBC] 4 =
      [0x341, 0x278, 0x56B, 0xC9A] ∧
    unpack12bit_spec [0x12, 0x34, 0x56, 0x78, 0x9A, 0xBC] ≠
      unpack12bit [0x12, 0x34, 0x56, 0x78, 0x9A, 0xBC] 4 := by
  refine ⟨rfl, rfl, by decide⟩

/-- C1 (amended): the source's `flag == 1` decoding — word byte-swap,
byte duplication, dropping positions 0 and 5 of every 6-byte group of the
doubled stream, big-endian regrouping, shift and 12-bit mask — yields
exactly `n_of_pulses` values, each below 4096, whenever the compacted
stream holds at least `n_of_pulses` words. -/
theorem C1_unpack12_count_range (data1 : List ℕ) (nPulses : ℕ)
    (hn : nPulses ≤ (toBE16 (dropMask6 (repeatTwice (swapWords data1)))).length) :
    (unpack12bit data1 nPulses).length = nPulses ∧
    ∀ v ∈ unpack12bit data1 nPulses, v < 4096 := by
  constructor
  · unfold unpack12bit shiftMask
    rw [List.length_map, List.enum_length, List.length_take]
    omega
  · intro v hv
    unfold unpack12bit shiftMask at hv
    obtain ⟨p, _, hp⟩ := List.mem_map.mp hv
    have hle : v ≤ 0x0FFF := hp ▸ Nat.and_le_right
    omega

/-- C1 witness: the amended statement evaluated on the concrete 6-byte
body with `n_of_pulses = 4`. -/
theorem C1_unpack12_count_range_witness :
    4 ≤ (toBE16 (dropMask6 (repeatTwice
          (swapWords [0x12, 0x34, 0x56, 0x78, 0x9A, 0xBC])))).length ∧
    (unpack12bit [0x12, 0x34, 0x56, 0x78, 0x9A, 0xBC] 4).length = 4 ∧
    ∀ v ∈ unpack12bit [0x12, 0x34, 0x56, 0x78, 0x9A, 0xBC] 4, v < 4096 :=
  ⟨by decide, C1_unpack12_count_range [0x12, 0x34, 0x56, 0x78, 0x9A, 0xBC] 4 (by decide)⟩

/-- `readBytes` returns exactly the requested number of bytes. -/
theorem readBytes_length (file : ℕ → ℕ) (pos len : ℕ) :
    (readBytes file pos len).length = len := by
  simp [readBytes]

/-- `toU32LE` produces one word per full 4-byte group. -/
theorem toU32LE_length : ∀ l : List ℕ, (toU32LE l).length = l.length / 4
  | [] => rfl
  | [_] => by simp [toU32LE]
  | [_, _] => by simp [toU32LE]
  | [_, _, _] => by simp [toU32LE]
  | _ :: _ :: _ :: _ :: rest => by
      rw [toU32LE, List.length_cons, toU32LE_length rest]
      simp only [List.length_cons]
      omega

/-- Each step of the pointer-table chunk chain contributes `usable`
bytes. -/
theorem collectTableChunks_length (file : ℕ → ℕ) (cs u : ℕ) :
    ∀ m chunk, (collectTableChunks file cs u m chunk).length = m * u
  | 0, _ => by simp [collectTableChunks]
  | m + 1, chunk => by
      rw [collectTableChunks, List.length_append, readBytes_length,
        collectTableChunks_length file cs u m]
      ring

/-- `a ≤ ceilDiv a b * b` for positive `b`: ceiling division rounds up. -/
theorem le_ceilDiv_mul (a b : ℕ) (hb : 0 < b) : a ≤ ceilDiv a b * b := by
  unfold ceilDiv
  rcases Nat.eq_zero_or_pos a with rfl | ha
  · simp
  · obtain ⟨a', rfl⟩ : ∃ a', a = a' + 1 := ⟨a - 1, by omega⟩
    have hrw : a' + 1 + b - 1 = a' + b := by omega
    rw [hrw, Nat.add_div_right _ hb, Nat.add_mul, Nat.one_mul, Nat.mul_comm]
    have h1 := Nat.div_add_mod a' b
    have h2 := Nat.mod_lt a' hb
    linarith

/-- If `ceilDiv a b ≤ 1` with positive `b` then `a ≤ b`. -/
theorem ceilDiv_le_one (a b : ℕ) (hb : 0 < b) (h : ceilDiv a b ≤ 1) :
    a ≤ b := by
  by_contra hab
  push_neg at hab
  have h2 : 2 ≤ (a + b - 1) / b := by
    rw [Nat.le_div_iff_mul_le hb]
    omega
  unfold ceilDiv at h
  omega

/-- C6: the pointer table of a file entry has exactly
`ceil(size / usable)` entries, and every entry points at the start of the
payload region of a physical chunk, `k * chunk_size + 0x138`. -/
theorem C6_pointer_table (file : ℕ → ℕ) (chunksize firstChunk size : ℕ)
    (hcs : 36 ≤ chunksize) :
    (fill_pointer_table file chunksize firstChunk size).length =
      calc_pointer_table_size size (chunksize - 32) ∧
    ∀ p ∈ fill_pointer_table file chunksize firstChunk size,
      ∃ k, p = k * chunksize + 0x138 := by
  have hupos : 0 < (chunksize - 32) / 4 := by omega
  constructor
  · simp only [fill_pointer_table]
    set u := chunksize - 32 with hu
    set sic := calc_pointer_table_size size u with hsic
    set nOf := ceilDiv sic (u / 4) with hnof
    have hlen : ∀ temp : List ℕ, sic * 4 ≤ temp.length →
        ((toU32LE (temp.take (sic * 4))).map
          (fun k => k * chunksize + 0x138)).length = sic := by
      intro temp htemp
      rw [List.length_map, toU32LE_length, List.length_take,
        Nat.min_eq_left htemp]
      omega
    by_cases h1 : nOf > 1
    · rw [if_pos h1]
      apply hlen
      rw [collectTableChunks_length]
      have h2 : sic ≤ nOf * (u / 4) := le_ceilDiv_mul sic (u / 4) hupos
      calc sic * 4 ≤ nOf * (u / 4) * 4 := Nat.mul_le_mul_right 4 h2
        _ = nOf * (u / 4 * 4) := by ring
        _ ≤ nOf * u := Nat.mul_le_mul_left nOf (Nat.div_mul_le_self u 4)
    · rw [if_neg h1]
      apply hlen
      rw [readBytes_length]
      have h2 : sic ≤ u / 4 := ceilDiv_le_one sic (u / 4) hupos (by omega)
      calc sic * 4 ≤ u / 4 * 4 := Nat.mul_le_mul_right 4 h2
        _ ≤ u := Nat.div_mul_le_self u 4
  · intro p hp
    simp only [fill_pointer_table, List.mem_map] at hp
    obtain ⟨k, _, hk⟩ := hp
    exact ⟨k, hk.symm⟩

/-- C6 witness: the invariant evaluated for a 5-byte file in a container
with `chunk_size = 0x1000`. -/
theorem C6_pointer_table_witness :
    (36 : ℕ) ≤ 4096 ∧
    ((fill_pointer_table (fun _ => 0) 4096 0 5).length =
        calc_pointer_table_size 5 (4096 - 32) ∧
      ∀ p ∈ fill_pointer_table (fun _ => 0) 4096 0 5,
        ∃ k, p = k * 4096 + 0x138) :=
  ⟨by decide, C6_pointer_table (fun _ => 0) 4096 0 5 (by decide)⟩

/-- Ceiling division in terms of floor division and the remainder. -/
theorem ceilDiv_eq (a b : ℕ) (hb : 0 < b) :
    ceilDiv a b = a / b + if a % b = 0 then 0 else 1 := by
  rcases Nat.eq_zero_or_pos a with rfl | ha
  · simp only [ceilDiv, Nat.zero_add, Nat.zero_div, Nat.zero_mod, if_pos rfl]
    exact Nat.div_eq_of_lt (by omega)
  · have h1 : a + b - 1 = (a - 1) + b := by omega
    unfold ceilDiv
    rw [h1, Nat.add_div_right _ hb]
    have h2 : a - 1 + 1 = a := by omega
    have h3 := Nat.succ_div (a - 1) b
    rw [h2] at h3
    by_cases hdvd : b ∣ a
    · have hmod0 : a % b = 0 := (Nat.mod_eq_zero_of_dvd hdvd)
      rw [if_pos hmod0, h3, if_pos hdvd]
    · rw [if_neg (fun h => hdvd (Nat.dvd_of_mod_eq_zero h)), h3, if_neg hdvd]

/-- A `drop`/`take` slice of a list, written as a map over the index
range (Python `pointers[s : s + m]`). -/
theorem slice_as_range (l : List ℕ) (s m : ℕ) (h : s + m ≤ l.length) :
    (l.drop s).take m = (List.range m).map (fun j => l.getD (s + j) 0) := by
  apply List.ext_getElem
  · simp only [List.length_take, List.length_drop, List.length_map,
      List.length_range]
    omega
  · intro i h1 h2
    simp only [List.getElem_take, List.getElem_drop, List.getElem_map,
      List.getElem_range]
    rw [List.getD_eq_getElem]

/-- Peeling the first block off a flattened range of blocks. -/
theorem flatten_range_map_succ (g : ℕ → List ℕ) (m : ℕ) :
    ((List.range (m + 1)).map g).flatten =
      g 0 ++ ((List.range m).map (fun j => g (1 + j))).flatten := by
  rw [List.range_succ_eq_map]
  simp only [List.map_map, List.map_cons, List.flatten_cons]
  refine congrArg (g 0 ++ ·) (congrArg List.flatten ?_)
  apply List.map_congr_left
  intro i _
  simp only [Function.comp_apply]
  congr 1
  omega

/-- Peeling the last block off a flattened range of blocks. -/
theorem flatten_range_map_last (g : ℕ → List ℕ) (m : ℕ) :
    ((List.range (m + 1)).map g).flatten =
      ((List.range m).map g).flatten ++ g m := by
  rw [List.range_succ]
  simp

/-- The flattened blocks of an index range have length
`count * blocksize` when every block has length `blocksize`. -/
theorem length_flatten_map_range (g : ℕ → List ℕ) (c m : ℕ)
    (hg : ∀ i, (g i).length = c) :
    (((List.range m).map g).flatten).length = m * c := by
  induction m with
  | zero => simp
  | succ n ih =>
      rw [List.range_succ]
      simp only [List.map_append, List.flatten_append, List.length_append, ih,
        List.map_cons, List.map_nil, List.flatten_cons, List.flatten_nil,
        List.append_nil, hg]
      ring

/-- C2: for an uncompressed file with a well-formed pointer table,
`read_piece(0, size)` returns exactly `size` bytes, and those bytes are
the concatenation of the chunks yielded by `_iter_read_chunks` (which
yields `size_in_chunks` chunks, the last truncated to `size % usable`
when that remainder is non-zero). -/
theorem C2_read_range_blocks (file : ℕ → ℕ) (pointers : List ℕ)
    (usable size : ℕ) (hu : 0 < usable) (hs : 0 < size)
    (hp : pointers.length = calc_pointer_table_size size usable) :
    (read_piece file pointers usable 0 size).length = size ∧
    ∃ chunks, iter_read_chunks file pointers usable size = some chunks ∧
      chunks.length = calc_pointer_table_size size usable ∧
      read_piece file pointers usable 0 size = chunks.flatten := by
  have hceil : calc_pointer_table_size size usable =
      size / usable + if size % usable = 0 then 0 else 1 :=
    ceilDiv_eq size usable hu
  have hdm := Nat.div_add_mod size usable
  have hmlt := Nat.mod_lt size hu
  by_cases hq : size / usable = 0
  · -- the file fits in a single chunk
    have hlt : size < usable := by
      by_contra hge
      push_neg at hge
      have h1 : 1 ≤ size / usable := (Nat.one_le_div_iff hu).mpr hge
      rw [hq] at h1
      exact absurd h1 (by norm_num)
    have hmod : size % usable = size := Nat.mod_eq_of_lt hlt
    have h1 : calc_pointer_table_size size usable = 1 := by
      rw [hceil, hq, hmod, if_neg (by omega)]
    have hrp : read_piece file pointers usable 0 size =
        readBytes file (pointers.getD 0 0) size := by
      simp only [read_piece, Nat.zero_div, Nat.zero_mod, Nat.zero_add, hq,
        ne_eq, not_true_eq_false, if_false, Nat.add_zero, ite_self]
    refine ⟨by rw [hrp, readBytes_length], ?_⟩
    refine ⟨[readBytes file (pointers.getD 0 0) size], ?_, by simp [h1], ?_⟩
    · simp only [iter_read_chunks, h1, if_neg one_ne_zero, hmod]
      simp [hs.ne']
    · rw [hrp]
      simp
  · -- the read spans several chunks
    obtain ⟨q, hqeq⟩ : ∃ q, size / usable = q + 1 := by
      generalize hd : size / usable = d at hq
      exact ⟨d - 1, by omega⟩
    rw [hqeq] at hdm
    have hlen : q + 1 ≤ pointers.length := by
      rw [hp, hceil, hqeq]
      split_ifs <;> omega
    have hslice : ((pointers.drop 1).take (q + 1 - 1)).map
        (fun p => readBytes file p usable) =
        (List.range q).map
          (fun j => readBytes file (pointers.getD (1 + j) 0) usable) := by
      rw [show q + 1 - 1 = q from rfl, slice_as_range pointers 1 q (by omega),
        List.map_map]
      rfl
    have hrp : read_piece file pointers usable 0 size =
        readBytes file (pointers.getD 0 0) usable ++
        ((List.range q).map
          (fun j => readBytes file (pointers.getD (1 + j) 0) usable)).flatten ++
        (if size % usable > 0 then
          readBytes file (pointers.getD (q + 1) 0) (size % usable) else []) := by
      simp only [read_piece, Nat.zero_div, Nat.zero_mod, Nat.zero_add, hqeq,
        Nat.sub_zero, Nat.add_zero]
      rw [if_pos (by omega : (0 : ℕ) ≠ q + 1), hslice]
    set g : ℕ → List ℕ :=
      fun idx => readBytes file (pointers.getD idx 0) usable with hg
    have hflat : readBytes file (pointers.getD 0 0) usable ++
        ((List.range q).map
          (fun j => readBytes file (pointers.getD (1 + j) 0) usable)).flatten =
        ((List.range (q + 1)).map g).flatten := by
      rw [flatten_range_map_succ g q]
    have hglen : ∀ i, (g i).length = usable := fun i => readBytes_length ..
    by_cases hr : size % usable = 0
    · -- the size is an exact multiple of the chunk payload
      have h1 : calc_pointer_table_size size usable = q + 1 := by
        rw [hceil, hqeq, if_pos hr]
      rw [hr] at hdm
      refine ⟨?_, ?_⟩
      · rw [hrp, hr, if_neg (lt_irrefl 0)]
        simp only [List.append_nil, List.length_append, readBytes_length,
          length_flatten_map_range _ usable q (fun i => readBytes_length ..)]
        -- usable + q * usable = size
        have hexp : usable * (q + 1) = usable * q + usable := by ring
        have hcomm : usable * q = q * usable := Nat.mul_comm usable q
        omega
      · refine ⟨(List.range (q + 1 - 1)).map g ++ [g (q + 1 - 1)], ?_, ?_, ?_⟩
        · simp only [iter_read_chunks, h1, if_neg (Nat.succ_ne_zero q), hr]
          simp [hg]
        · simp [h1]
        · rw [hrp, hr, if_neg (lt_irrefl 0)]
          simp only [List.append_nil, hflat]
          rw [show q + 1 - 1 = q from rfl, flatten_range_map_last g q]
          simp
    · -- a final truncated chunk remains
      have h1 : calc_pointer_table_size size usable = q + 2 := by
        rw [hceil, hqeq, if_neg hr]
      refine ⟨?_, ?_⟩
      · rw [hrp, if_pos (Nat.pos_of_ne_zero hr)]
        simp only [List.length_append, readBytes_length,
          length_flatten_map_range _ usable q (fun i => readBytes_length ..)]
        -- usable + q * usable + size % usable = size
        have hexp : usable * (q + 1) = usable * q + usable := by ring
        have hcomm : usable * q = q * usable := Nat.mul_comm usable q
        generalize hsr : size % usable = sr at hdm ⊢
        omega
      · refine ⟨(List.range (q + 2 - 1)).map g ++
          [readBytes file (pointers.getD (q + 2 - 1) 0) (size % usable)],
          ?_, ?_, ?_⟩
        · simp only [iter_read_chunks, h1, if_neg (Nat.succ_ne_zero (q + 1))]
          simp [hg, hr]
        · simp [h1]
        · rw [hrp, if_pos (Nat.pos_of_ne_zero hr)]
          simp only [List.flatten_append, List.flatten_cons, List.flatten_nil,
            List.append_nil]
          rw [show q + 2 - 1 = q + 1 from rfl, hflat]

/-- C2 witness: the equality evaluated for a 10-byte file stored in
chunks of 4 usable bytes across a 3-entry pointer table. -/
theorem C2_read_range_blocks_witness :
    ((0:ℕ) < 4 ∧ (0:ℕ) < 10 ∧
      ([100, 200, 300] : List ℕ).length = calc_pointer_table_size 10 4) ∧
    ((read_piece (fun i => i % 7) [100, 200, 300] 4 0 10).length = 10 ∧
      ∃ chunks, iter_read_chunks (fun i => i % 7) [100, 200, 300] 4 10 =
          some chunks ∧
        chunks.length = calc_pointer_table_size 10 4 ∧
        read_piece (fun i => i % 7) [100, 200, 300] 4 0 10 = chunks.flatten) :=
  ⟨⟨by decide, by decide, by decide⟩,
   C2_read_range_blocks (fun i => i % 7) [100, 200, 300] 4 10
     (by decide) (by decide) (by decide)⟩

/-- `splitOnChar` never returns the empty list of components. -/
theorem splitOnChar_ne_nil (sep : Char) (l : List Char) :
    splitOnChar sep l ≠ [] := by
  cases l with
  | nil => simp [splitOnChar]
  | cons c rest =>
      simp only [splitOnChar]
      cases splitOnChar sep rest <;> split_ifs <;> simp

/-- Splitting a separator-free list yields that single component. -/
theorem splitOnChar_no_sep (sep : Char) (c : List Char) (h : sep ∉ c) :
    splitOnChar sep c = [c] := by
  induction c with
  | nil => rfl
  | cons a as ih =>
      have has : sep ∉ as := fun hm => h (List.mem_cons_of_mem _ hm)
      have hne : ¬ a = sep := fun he => h (he ▸ List.mem_cons_self a as)
      simp only [splitOnChar, ih has, if_neg hne]

/-- Splitting `p ++ sep :: c` with `sep ∉ c` appends the component `c` to
the splitting of `p`. -/
theorem splitOnChar_append (sep : Char) (p c : List Char) (hc : sep ∉ c) :
    splitOnChar sep (p ++ sep :: c) = splitOnChar sep p ++ [c] := by
  induction p with
  | nil => simp [splitOnChar, splitOnChar_no_sep sep c hc]
  | cons a as ih =>
      obtain ⟨h1, t, ht⟩ := List.exists_cons_of_ne_nil (splitOnChar_ne_nil sep as)
      have hstep : splitOnChar sep (as ++ sep :: c) = h1 :: (t ++ [c]) := by
        rw [ih, ht]; rfl
      simp only [List.cons_append, splitOnChar, ht, List.append_eq]
      split_ifs <;> (rw [hstep]; simp)

/-- Descending the extended path `p ++ '/' :: c` is descending `p` and
then performing one lookup step with the final component `c`. -/
theorem get_file_append (vfs : VfsNode) (p c : List Char) (hc : '/' ∉ c) :
    get_file vfs (p ++ '/' :: c) =
      (get_file vfs p).bind (fun item => getItemStep item c) := by
  unfold get_file
  rw [splitOnChar_append _ _ _ hc, List.foldl_append]
  rfl

/-- C7 counterexample: looking up a path whose final component names a
directory does not fail — it returns the directory node itself, so the
claimed `NotAFile` failure does not exist in the code. -/
theorem C7_counterexample :
    get_file sampleVfs ("EDSDatabase".toList) =
      .ok (.dir [("HeaderData".toList, .file 0)]) ∧
    ∀ e : SfsLookupError,
      get_file sampleVfs ("EDSDatabase".toList) ≠ .error e := by
  refine ⟨rfl, fun e h => ?_⟩
  rw [show get_file sampleVfs ("EDSDatabase".toList) =
      .ok (.dir [("HeaderData".toList, .file 0)]) from rfl] at h
  exact Except.noConfusion h

/-- C7 (amended): `get_file` splits the path on `/` and descends the
tree; a component missing from a directory raises `KeyError`
(`NotFound`), but a final component naming a directory is returned as
that directory node rather than failing. -/
theorem C7_lookup_behaviour (vfs : VfsNode) (p c : List Char) (hc : '/' ∉ c) :
    get_file vfs (p ++ '/' :: c) =
      (get_file vfs p).bind (fun item => getItemStep item c) ∧
    (∀ entries, get_file vfs p = .ok (.dir entries) →
      childLookup entries c = none →
      get_file vfs (p ++ '/' :: c) = .error .keyError) ∧
    (∀ entries sub, get_file vfs p = .ok (.dir entries) →
      childLookup entries c = some (.dir sub) →
      get_file vfs (p ++ '/' :: c) = .ok (.dir sub)) := by
  refine ⟨get_file_append vfs p c hc, ?_, ?_⟩
  · intro entries h1 h2
    rw [get_file_append vfs p c hc, h1]
    simp [Except.bind, getItemStep, h2]
  · intro entries sub h1 h2
    rw [get_file_append vfs p c hc, h1]
    simp [Except.bind, getItemStep, h2]

/-- C7 witness: on the sample tree, the missing final component
`SpectrumData1` under `EDSDatabase` raises `KeyError`. -/
theorem C7_lookup_behaviour_witness :
    ('/' ∉ ("SpectrumData1".toList)) ∧
    get_file sampleVfs ("EDSDatabase".toList ++ '/' :: "SpectrumData1".toList) =
      .error .keyError :=
  ⟨by decide,
   (C7_lookup_behaviour sampleVfs ("EDSDatabase".toList)
      ("SpectrumData1".toList) (by decide)).2.1
     [("HeaderData".toList, .file 0)] rfl rfl⟩

/-- Once `offset` reaches `the_end`, the run loop stops with the empty
suffix, for any remaining fuel. -/
theorem parseRunsF_done (body : List ℕ) (theEnd fuel offset : ℕ)
    (h : ¬ offset < theEnd) : parseRunsF body theEnd fuel offset = some [] := by
  cases fuel <;> simp [parseRunsF, h]

/-- C5 counterexample: the run stream that the claim prescribes — header
`nibble_width=4, run_length=3`, a 2-byte gain `0x10,0x00`, three `u16`
values `1, 2, 3` and a `nibble_width=0, run_length=4` run — does not
decode to `[0x11, 0x12, 0x13, 0, 0, 0, 0]`: the source reads a 4-byte
gain for `size_p = 4` (`st[size_p * 2]` = `'I'`), consuming the first
value's bytes into the gain. -/
theorem C5_counterexample :
    parseRuns [0x04, 0x03, 0x10, 0x00, 0x01, 0x00,
               0x02, 0x00, 0x03, 0x00, 0x00, 0x04] 12 0 =
      some [65554, 65555, 66576] ∧
    parseRuns [0x04, 0x03, 0x10, 0x00, 0x01, 0x00,
               0x02, 0x00, 0x03, 0x00, 0x00, 0x04] 12 0 ≠
      some [0x11, 0x12, 0x13, 0, 0, 0, 0] := by
  refine ⟨rfl, by decide⟩

/-- The run loop is fuel-irrelevant: any fuel of at least `the_end -
offset` bytes (each iteration consumes at least two) gives the same
result. -/
theorem parseRunsF_fuel_any (body : List ℕ) (theEnd : ℕ) (fuel : ℕ) :
    ∀ f2 offset, theEnd - offset ≤ fuel → theEnd - offset ≤ f2 →
      parseRunsF body theEnd fuel offset = parseRunsF body theEnd f2 offset := by
  induction fuel with
  | zero =>
      intro f2 offset h1 h2
      have hlt : ¬ offset < theEnd := by omega
      rw [parseRunsF_done body theEnd 0 offset hlt,
        parseRunsF_done body theEnd f2 offset hlt]
  | succ g1 ih =>
      intro f2 offset h1 h2
      by_cases hlt : offset < theEnd
      · obtain ⟨g2, rfl⟩ : ∃ g2, f2 = g2 + 1 := ⟨f2 - 1, by omega⟩
        simp only [parseRunsF, if_pos hlt]
        split_ifs with hc0 hc1 hc2
        · rw [ih g2 (offset + 2) (by omega) (by omega)]
        · rw [ih g2 (offset + 3 + ceilDiv (body.getD (offset + 1) 0) 2)
            (by omega) (by omega)]
        · rw [ih g2 (offset + 2 + body.getD offset 0 +
            body.getD (offset + 1) 0 * (body.getD offset 0 / 2))
            (by omega) (by omega)]
        · rfl
      · rw [parseRunsF_done body theEnd _ _ hlt,
          parseRunsF_done body theEnd _ _ hlt]

/-- One gain-run step of the loop, anywhere in the body: a run with
header byte `size_p ∈ {2, 4, 8}` reads a `size_p`-byte little-endian
gain, emits `run_length` values `v + gain`, and decoding continues at
the following run. -/
theorem parseRuns_gain_run (body : List ℕ) (theEnd offset sp ch : ℕ)
    (hsp : sp = 2 ∨ sp = 4 ∨ sp = 8)
    (h0 : body.getD offset 0 = sp) (h1 : body.getD (offset + 1) 0 = ch)
    (hlt : offset < theEnd) :
    parseRuns body theEnd offset =
      (parseRuns body theEnd (offset + 2 + sp + ch * (sp / 2))).map
        (fun rest => (List.range ch).map
          (fun i => readLEList body (offset + 2 + sp + i * (sp / 2)) (sp / 2) +
                    readLEList body (offset + 2) sp) ++ rest) := by
  have hne0 : sp ≠ 0 := by rcases hsp with h | h | h <;> omega
  have hne1 : sp ≠ 1 := by rcases hsp with h | h | h <;> omega
  have hfuel : theEnd - offset = (theEnd - offset - 1) + 1 := by omega
  rw [parseRuns, hfuel]
  rw [parseRunsF]
  rw [if_pos hlt]
  simp only [h0, h1, if_neg hne0, if_neg hne1, if_pos hsp]
  rw [parseRunsF_fuel_any body theEnd (theEnd - offset - 1)
    (theEnd - (offset + 2 + sp + ch * (sp / 2)))
    (offset + 2 + sp + ch * (sp / 2)) (by omega) (by omega)]
  rfl

/-- C5 (amended): for every `flag > 1` run whose header byte
`nibble_width` is `2`, `4` or `8` (values of `nibble_width` nibbles,
i.e. `byte_width = nibble_width / 2` bytes), the gain is read as an
unsigned little-endian value of `nibble_width` bytes — `byte_width * 2`
bytes, twice the width the claim states — each of the `run_length`
subsequent `byte_width`-wide values `v` emits `v + gain`, and the loop
continues with the rest of the body; a header byte of `16` fails (the
`st[32]` lookup raises `KeyError`); concretely, the corrected stream —
header `nibble_width=4, run_length=3`, a 4-byte LE gain `0x10`, values
`1, 2, 3`, then a `nibble_width=0, run_length=4` run — decodes to
`[0x11, 0x12, 0x13, 0, 0, 0, 0]`. -/
theorem C5_gain_width :
    (∀ (body : List ℕ) (theEnd offset sp ch : ℕ),
      sp = 2 ∨ sp = 4 ∨ sp = 8 →
      body.getD offset 0 = sp → body.getD (offset + 1) 0 = ch →
      offset < theEnd →
      parseRuns body theEnd offset =
        (parseRuns body theEnd (offset + 2 + sp + ch * (sp / 2))).map
          (fun rest => (List.range ch).map
            (fun i => readLEList body (offset + 2 + sp + i * (sp / 2)) (sp / 2) +
                      readLEList body (offset + 2) sp) ++ rest)) ∧
    (∀ (body : List ℕ) (theEnd offset : ℕ),
      body.getD offset 0 = 16 → offset < theEnd →
      parseRuns body theEnd offset = none) ∧
    parseRuns [0x04, 0x03, 0x10, 0x00, 0x00, 0x00,
               0x01, 0x00, 0x02, 0x00, 0x03, 0x00, 0x00, 0x04] 14 0 =
      some [0x11, 0x12, 0x13, 0, 0, 0, 0] := by
  refine ⟨parseRuns_gain_run, ?_, by decide⟩
  intro body theEnd offset h0 hlt
  have hfuel : theEnd - offset = (theEnd - offset - 1) + 1 := by omega
  rw [parseRuns, hfuel]
  rw [parseRunsF]
  rw [if_pos hlt]
  simp only [h0]
  norm_num

/-- C5 witness: the amended gain-run step applied to the two-run stream —
a `size_p=4, run_length=3` run with 4-byte gain `0x10` followed by a
zero run — whose decode evaluates to `[0x11, 0x12, 0x13, 0, 0, 0, 0]`. -/
theorem C5_gain_width_witness :
    (((4:ℕ) = 2 ∨ (4:ℕ) = 4 ∨ (4:ℕ) = 8) ∧ (0:ℕ) < 14) ∧
    parseRuns [0x04, 0x03, 0x10, 0x00, 0x00, 0x00,
               0x01, 0x00, 0x02, 0x00, 0x03, 0x00, 0x00, 0x04] 14 0 =
      some [0x11, 0x12, 0x13, 0, 0, 0, 0] :=
  ⟨⟨Or.inr (Or.inl rfl), by decide⟩,
   (C5_gain_width.1 [0x04, 0x03, 0x10, 0x00, 0x00, 0x00,
      0x01, 0x00, 0x02, 0x00, 0x03, 0x00, 0x00, 0x04] 14 0 4 3
      (Or.inr (Or.inl rfl)) rfl rfl (by decide)).trans (by decide)⟩

/-- `writePixel` in terms of the covered region. -/
theorem writePixel_eq (dwn maxChan width lineCnt : ℕ) (vfa : ℕ → ℕ)
    (p : PixelRec) (i : ℕ) :
    writePixel dwn maxChan width lineCnt vfa p i =
      if covers dwn maxChan width (lineCnt, p) i then
        (if dwn = 1 then 0 else vfa i) +
          p.hist.getD (i - maxChan * pixIdx dwn width lineCnt p.x) 0
      else vfa i := rfl

/-- `contrib` in terms of the covered region. -/
theorem contrib_eq (dwn maxChan width lineCnt : ℕ) (p : PixelRec) (i : ℕ) :
    contrib dwn maxChan width lineCnt p i =
      if covers dwn maxChan width (lineCnt, p) i then
        p.hist.getD (i - maxChan * pixIdx dwn width lineCnt p.x) 0
      else 0 := rfl

/-- With a downsampling factor other than 1, a pixel write adds its
contribution on top of the current cell value. -/
theorem writePixel_add (dwn maxChan width lineCnt : ℕ) (vfa : ℕ → ℕ)
    (p : PixelRec) (i : ℕ) (hd : dwn ≠ 1) :
    writePixel dwn maxChan width lineCnt vfa p i =
      vfa i + contrib dwn maxChan width lineCnt p i := by
  rw [writePixel_eq, contrib_eq, if_neg hd]
  split_ifs <;> omega

/-- The line loop is the fold of the per-event write over `lineEvents`. -/
theorem decodeLines_eq_foldl_events (dwn maxChan width : ℕ) :
    ∀ (lines : List (List PixelRec)) (lineCnt : ℕ) (vfa : ℕ → ℕ),
      decodeLines dwn maxChan width lineCnt vfa lines =
        (lineEvents lineCnt lines).foldl
          (fun v e => writePixel dwn maxChan width e.1 v e.2) vfa
  | [], _, _ => rfl
  | line :: rest, lineCnt, vfa => by
      simp only [decodeLines, lineEvents, List.foldl_append]
      rw [decodeLines_eq_foldl_events dwn maxChan width rest (lineCnt + 1),
        List.foldl_map]

/-- Folding adding writes accumulates the total contribution
(`dwn_factor > 1`). -/
theorem foldl_events_add (dwn maxChan width : ℕ) (hd : dwn ≠ 1) :
    ∀ (events : List (ℕ × PixelRec)) (vfa : ℕ → ℕ) (i : ℕ),
      (events.foldl (fun v e => writePixel dwn maxChan width e.1 v e.2) vfa) i =
        vfa i + eventsContrib dwn maxChan width events i
  | [], vfa, i => by simp [eventsContrib]
  | e :: rest, vfa, i => by
      simp only [List.foldl_cons, eventsContrib, List.map_cons, List.sum_cons]
      rw [foldl_events_add dwn maxChan width hd rest _ i,
        writePixel_add dwn maxChan width e.1 vfa e.2 i hd]
      simp only [eventsContrib]
      omega

/-- Folding assigning writes (`dwn_factor == 1`) over pairwise-disjoint
events, starting from an array that is zero on every covered cell, also
accumulates the total contribution. -/
theorem foldl_events_assign (maxChan width : ℕ) :
    ∀ (events : List (ℕ × PixelRec)) (vfa : ℕ → ℕ) (i : ℕ),
      List.Pairwise (fun e1 e2 => ∀ j,
        ¬(covers 1 maxChan width e1 j ∧ covers 1 maxChan width e2 j)) events →
      (∀ e ∈ events, ∀ j, covers 1 maxChan width e j → vfa j = 0) →
      (events.foldl (fun v e => writePixel 1 maxChan width e.1 v e.2) vfa) i =
        vfa i + eventsContrib 1 maxChan width events i
  | [], vfa, i, _, _ => by simp [eventsContrib]
  | e :: rest, vfa, i, hdisj, hzero => by
      obtain ⟨hdhead, hdrest⟩ := List.pairwise_cons.mp hdisj
      have hz : ∀ e' ∈ rest, ∀ j, covers 1 maxChan width e' j →
          writePixel 1 maxChan width e.1 vfa e.2 j = 0 := by
        intro e' he' j hcj
        rw [show writePixel 1 maxChan width e.1 vfa e.2 j =
            writePixel 1 maxChan width e.1 vfa e.2 j from rfl,
          writePixel_eq, if_neg (fun hc => hdhead e' he' j ⟨hc, hcj⟩)]
        exact hzero e' (List.mem_cons_of_mem _ he') j hcj
      simp only [List.foldl_cons, eventsContrib, List.map_cons, List.sum_cons]
      rw [foldl_events_assign maxChan width rest _ i hdrest hz]
      rw [writePixel_eq, contrib_eq]
      by_cases hcov : covers 1 maxChan width (e.1, e.2) i
      · rw [if_pos hcov, if_pos hcov, if_pos rfl]
        have hv0 : vfa i = 0 :=
          hzero e (List.mem_cons_self ..) i (by exact hcov)
        simp only [eventsContrib]
        omega
      · rw [if_neg hcov, if_neg hcov]
        simp only [eventsContrib]
        omega

/-- With no downsampling the pixel index is the row-major flat index. -/
theorem pixIdx_one (width l x : ℕ) : pixIdx 1 width l x = x + width * l := by
  unfold pixIdx ceilDiv
  simp [Nat.div_one]

/-- Ceiling division collapses to floor division on exact multiples. -/
theorem ceilDiv_dvd (w d : ℕ) (hd : 0 < d) (hw : d ∣ w) :
    ceilDiv w d = w / d := by
  rw [ceilDiv_eq w d hd, Nat.mod_eq_zero_of_dvd hw, if_pos rfl, Nat.add_zero]

/-- The downsampled pixel index when the raster width is an exact
multiple of the factor. -/
theorem pixIdx_dvd (d width l x : ℕ) (hd : 0 < d) (hw : d ∣ width) :
    pixIdx d width l x = x / d + width / d * (l / d) := by
  unfold pixIdx
  rw [ceilDiv_dvd width d hd hw]

/-- Row-major flat coordinates are unique below the row width. -/
theorem flat_unique (w x x' l l' : ℕ) (hx : x < w) (hx' : x' < w)
    (h : x + w * l = x' + w * l') : x = x' ∧ l = l' := by
  have hw0 : 0 < w := by omega
  have h1 : (x + w * l) / w = l := by
    rw [Nat.add_mul_div_left _ _ hw0, Nat.div_eq_of_lt hx, Nat.zero_add]
  have h2 : (x' + w * l') / w = l' := by
    rw [Nat.add_mul_div_left _ _ hw0, Nat.div_eq_of_lt hx', Nat.zero_add]
  have h3 : (x + w * l) % w = x := by
    rw [Nat.add_mul_mod_self_left, Nat.mod_eq_of_lt hx]
  have h4 : (x' + w * l') % w = x' := by
    rw [Nat.add_mul_mod_self_left, Nat.mod_eq_of_lt hx']
  constructor
  · rw [← h3, h, h4]
  · rw [← h1, h, h2]

/-- A raster coordinate `x` lies in spatial block `X` at in-block offset
`dx` exactly when `x` decomposes as `X * d + dx`. -/
theorem block_coord_iff (d X x dx : ℕ) (hd : 0 < d) (hdx : dx < d) :
    X * d + dx = x ↔ (x / d = X ∧ dx = x % d) := by
  constructor
  · rintro rfl
    rw [Nat.mul_comm X d]
    constructor
    · rw [Nat.mul_add_div hd, Nat.div_eq_of_lt hdx, Nat.add_zero]
    · rw [Nat.mul_add_mod, Nat.mod_eq_of_lt hdx]
  · rintro ⟨h1, h2⟩
    have h3 := Nat.div_add_mod x d
    rw [h1, ← h2] at h3
    rw [Nat.mul_comm X d]
    exact h3

/-- A sum of an indicator over an index range picks the lone value. -/
theorem sum_indicator_single (d k v : ℕ) (hk : k < d) :
    (∑ j in Finset.range d, if j = k then v else 0) = v := by
  rw [Finset.sum_ite_eq' (Finset.range d) k (fun _ => v)]
  simp [hk]

/-- `contrib` evaluated at the flat index `maxChan * v + c` with
`c < maxChan`: non-zero only in the event's own cell and below its
channel count. -/
theorem contrib_at (dwn maxChan width lineCnt : ℕ) (p : PixelRec) (v c : ℕ)
    (hc : c < maxChan) :
    contrib dwn maxChan width lineCnt p (maxChan * v + c) =
      if v = pixIdx dwn width lineCnt p.x ∧ c < min p.chanCap maxChan
      then p.hist.getD c 0 else 0 := by
  unfold contrib
  have hch : min p.chanCap maxChan ≤ maxChan := Nat.min_le_right _ _
  by_cases h : v = pixIdx dwn width lineCnt p.x ∧ c < min p.chanCap maxChan
  · obtain ⟨h1, h2⟩ := h
    rw [if_pos ⟨h1 ▸ Nat.le_add_right _ _, by rw [← h1]; omega⟩,
      if_pos ⟨h1, h2⟩, ← h1, Nat.add_sub_cancel_left]
  · rw [if_neg h]
    refine if_neg (fun hcond => h ?_)
    obtain ⟨ha, hb⟩ := hcond
    have hvpi : v = pixIdx dwn width lineCnt p.x := by
      have he1 : maxChan * (pixIdx dwn width lineCnt p.x + 1) =
          maxChan * pixIdx dwn width lineCnt p.x + maxChan := by ring
      have he2 : maxChan * (v + 1) = maxChan * v + maxChan := by ring
      have h1 : maxChan * v < maxChan * (pixIdx dwn width lineCnt p.x + 1) := by
        omega
      have h2 : maxChan * pixIdx dwn width lineCnt p.x < maxChan * (v + 1) := by
        omega
      have h3 := Nat.lt_of_mul_lt_mul_left h1
      have h4 := Nat.lt_of_mul_lt_mul_left h2
      omega
    refine ⟨hvpi, ?_⟩
    rw [← hvpi] at hb
    omega

/-- The per-event downsampling identity: summing a pixel event's
`dwn = 1` deposits over a `d`-by-`d` spatial block of output cells gives
exactly its `dwn = d` deposit in the corresponding downsampled cell. -/
theorem contrib_block_sum (d maxChan width l : ℕ) (p : PixelRec)
    (hd : 0 < d) (hw : d ∣ width) (hx : p.x < width)
    (Y X c : ℕ) (hX : X < width / d) (hc : c < maxChan) :
    (∑ dy in Finset.range d, ∑ dx in Finset.range d,
       contrib 1 maxChan width l p
         (maxChan * ((X * d + dx) + width * (Y * d + dy)) + c)) =
    contrib d maxChan width l p (maxChan * (X + width / d * Y) + c) := by
  have hxd : p.x % d < d := Nat.mod_lt _ hd
  have hld : l % d < d := Nat.mod_lt _ hd
  have hXd : ∀ dx, dx < d → X * d + dx < width := by
    intro dx hdx
    have h1 : (X + 1) * d ≤ width / d * d :=
      Nat.mul_le_mul_right d (by omega)
    have h2 : width / d * d = width := Nat.div_mul_cancel hw
    have h3 : (X + 1) * d = X * d + d := by ring
    omega
  have key : ∀ dy ∈ Finset.range d, ∀ dx ∈ Finset.range d,
      contrib 1 maxChan width l p
          (maxChan * ((X * d + dx) + width * (Y * d + dy)) + c) =
        if dx = p.x % d then
          (if dy = l % d then
            (if p.x / d = X ∧ l / d = Y ∧ c < min p.chanCap maxChan
             then p.hist.getD c 0 else 0)
          else 0)
        else 0 := by
    intro dy hdy dx hdx
    rw [Finset.mem_range] at hdy hdx
    rw [contrib_at 1 maxChan width l p _ c hc, pixIdx_one]
    have hvu : ((X * d + dx) + width * (Y * d + dy) = p.x + width * l) ↔
        (X * d + dx = p.x ∧ Y * d + dy = l) := by
      constructor
      · intro h
        exact flat_unique width (X * d + dx) p.x (Y * d + dy) l
          (hXd dx hdx) hx h
      · rintro ⟨h1, h2⟩
        rw [h1, h2]
    have hxiff : (X * d + dx = p.x) ↔ (p.x / d = X ∧ dx = p.x % d) :=
      block_coord_iff d X p.x dx hd hdx
    have hyiff : (Y * d + dy = l) ↔ (l / d = Y ∧ dy = l % d) :=
      block_coord_iff d Y l dy hd hdy
    simp only [hvu, hxiff, hyiff]
    by_cases h1 : dx = p.x % d <;> by_cases h2 : dy = l % d <;>
      by_cases h3 : p.x / d = X <;> by_cases h4 : l / d = Y <;>
        by_cases h5 : c < min p.chanCap maxChan <;>
          simp [h1, h2, h3, h4, h5]
  rw [Finset.sum_congr rfl fun dy hdy => Finset.sum_congr rfl fun dx hdx =>
    key dy hdy dx hdx]
  rw [Finset.sum_congr rfl fun dy _ =>
    sum_indicator_single d (p.x % d)
      (if dy = l % d then
        (if p.x / d = X ∧ l / d = Y ∧ c < min p.chanCap maxChan
         then p.hist.getD c 0 else 0) else 0) hxd]
  rw [sum_indicator_single d (l % d)
    (if p.x / d = X ∧ l / d = Y ∧ c < min p.chanCap maxChan
     then p.hist.getD c 0 else 0) hld]
  rw [contrib_at d maxChan width l p _ c hc, pixIdx_dvd d width l p.x hd hw]
  have hxdlt : p.x / d < width / d := Nat.div_lt_div_of_lt_of_dvd hw hx
  have hiff : (X + width / d * Y = p.x / d + width / d * (l / d)) ↔
      (p.x / d = X ∧ l / d = Y) := by
    constructor
    · intro h
      obtain ⟨h1, h2⟩ := flat_unique (width / d) X (p.x / d) Y (l / d) hX hxdlt h
      exact ⟨h1.symm, h2.symm⟩
    · rintro ⟨h1, h2⟩
      rw [← h1, ← h2]
  simp only [hiff, and_assoc]

/-- Every event of `lineEvents` comes from a pixel of one of the
lines. -/
theorem lineEvents_mem :
    ∀ (lines : List (List PixelRec)) (L : ℕ) (e : ℕ × PixelRec),
      e ∈ lineEvents L lines → ∃ line ∈ lines, e.2 ∈ line
  | [], _, _, h => by simp [lineEvents] at h
  | line :: rest, L, e, h => by
      rw [lineEvents, List.mem_append] at h
      rcases h with h | h
      · obtain ⟨p, hp, hpe⟩ := List.mem_map.mp h
        exact ⟨line, List.mem_cons_self .., by rw [← hpe]; exact hp⟩
      · obtain ⟨line', hl', hm'⟩ := lineEvents_mem rest (L + 1) e h
        exact ⟨line', List.mem_cons_of_mem _ hl', hm'⟩

/-- Events of later lines carry line counters at least the running
counter. -/
theorem lineEvents_fst_ge :
    ∀ (lines : List (List PixelRec)) (L : ℕ) (e : ℕ × PixelRec),
      e ∈ lineEvents L lines → L ≤ e.1
  | [], _, _, h => by simp [lineEvents] at h
  | line :: rest, L, e, h => by
      rw [lineEvents, List.mem_append] at h
      rcases h with h | h
      · obtain ⟨p, _, hpe⟩ := List.mem_map.mp h
        rw [← hpe]
      · have := lineEvents_fst_ge rest (L + 1) e h
        omega

/-- With `dwn = 1`, two events of distinct line counter or distinct
column have disjoint written regions. -/
theorem covers_disjoint_one (maxChan width : ℕ) (e1 e2 : ℕ × PixelRec)
    (hx1 : e1.2.x < width) (hx2 : e2.2.x < width)
    (hne : e1.1 ≠ e2.1 ∨ e1.2.x ≠ e2.2.x) (j : ℕ) :
    ¬(covers 1 maxChan width e1 j ∧ covers 1 maxChan width e2 j) := by
  rintro ⟨⟨h1a, h1b⟩, ⟨h2a, h2b⟩⟩
  rw [pixIdx_one] at h1a h1b h2a h2b
  have hm1 : min e1.2.chanCap maxChan ≤ maxChan := Nat.min_le_right _ _
  have hm2 : min e2.2.chanCap maxChan ≤ maxChan := Nat.min_le_right _ _
  have he1 : maxChan * ((e2.2.x + width * e2.1) + 1) =
      maxChan * (e2.2.x + width * e2.1) + maxChan := by ring
  have he2 : maxChan * ((e1.2.x + width * e1.1) + 1) =
      maxChan * (e1.2.x + width * e1.1) + maxChan := by ring
  have hc1 : maxChan * (e1.2.x + width * e1.1) <
      maxChan * ((e2.2.x + width * e2.1) + 1) := by omega
  have hc2 : maxChan * (e2.2.x + width * e2.1) <
      maxChan * ((e1.2.x + width * e1.1) + 1) := by omega
  have h3 := Nat.lt_of_mul_lt_mul_left hc1
  have h4 := Nat.lt_of_mul_lt_mul_left hc2
  have hpieq : e1.2.x + width * e1.1 = e2.2.x + width * e2.1 := by omega
  obtain ⟨hx, hl⟩ := flat_unique width e1.2.x e2.2.x e1.1 e2.1 hx1 hx2 hpieq
  rcases hne with h | h
  · exact h hl
  · exact h hx

/-- The events of a well-formed raster (columns within the width,
no duplicate column within a line) have pairwise-disjoint `dwn = 1`
regions. -/
theorem pairwise_lineEvents (maxChan width : ℕ) :
    ∀ (lines : List (List PixelRec)) (L : ℕ),
      (∀ line ∈ lines, ∀ p ∈ line, p.x < width) →
      (∀ line ∈ lines, (line.map PixelRec.x).Nodup) →
      List.Pairwise (fun e1 e2 => ∀ j,
        ¬(covers 1 maxChan width e1 j ∧ covers 1 maxChan width e2 j))
        (lineEvents L lines)
  | [], _, _, _ => List.Pairwise.nil
  | line :: rest, L, hx, hnodup => by
      rw [lineEvents]
      have hxline : ∀ p ∈ line, p.x < width :=
        hx line (List.mem_cons_self ..)
      have hxrest : ∀ line' ∈ rest, ∀ p ∈ line', p.x < width :=
        fun line' h => hx line' (List.mem_cons_of_mem _ h)
      have hnline : (line.map PixelRec.x).Nodup :=
        hnodup line (List.mem_cons_self ..)
      have hnrest : ∀ line' ∈ rest, (line'.map PixelRec.x).Nodup :=
        fun line' h => hnodup line' (List.mem_cons_of_mem _ h)
      rw [List.pairwise_append]
      refine ⟨?_, pairwise_lineEvents maxChan width rest (L + 1) hxrest hnrest, ?_⟩
      · rw [List.pairwise_map]
        have hpx : List.Pairwise (fun p q : PixelRec => p.x ≠ q.x) line := by
          rw [List.Nodup, List.pairwise_map] at hnline
          exact hnline
        refine hpx.imp_of_mem ?_
        intro p q hp hq hne j
        exact covers_disjoint_one maxChan width (L, p) (L, q)
          (hxline p hp) (hxline q hq) (Or.inr hne) j
      · intro e1 h1 e2 h2 j
        obtain ⟨p, hp, hpe⟩ := List.mem_map.mp h1
        have hge := lineEvents_fst_ge rest (L + 1) e2 h2
        obtain ⟨line2, hl2, hm2⟩ := lineEvents_mem rest (L + 1) e2 h2
        refine covers_disjoint_one maxChan width e1 e2 ?_
          (hxrest line2 hl2 e2.2 hm2) (Or.inl ?_) j
        · rw [← hpe]
          exact hxline p hp
        · rw [← hpe]
          omega

/-- The block-sum identity lifted to the total contribution of a list
of events. -/
theorem eventsContrib_block_sum (d maxChan width : ℕ) (hd : 0 < d)
    (hw : d ∣ width) (events : List (ℕ × PixelRec))
    (hx : ∀ e ∈ events, e.2.x < width)
    (Y X c : ℕ) (hX : X < width / d) (hc : c < maxChan) :
    (∑ dy in Finset.range d, ∑ dx in Finset.range d,
       eventsContrib 1 maxChan width events
         (maxChan * ((X * d + dx) + width * (Y * d + dy)) + c)) =
    eventsContrib d maxChan width events
      (maxChan * (X + width / d * Y) + c) := by
  induction events with
  | nil => simp [eventsContrib]
  | cons e rest ih =>
      have hxe : e.2.x < width := hx e (List.mem_cons_self ..)
      have hxr : ∀ e' ∈ rest, e'.2.x < width :=
        fun e' he' => hx e' (List.mem_cons_of_mem _ he')
      simp only [eventsContrib, List.map_cons, List.sum_cons]
      rw [Finset.sum_congr rfl fun dy _ => Finset.sum_add_distrib,
        Finset.sum_add_distrib]
      rw [contrib_block_sum d maxChan width e.1 e.2 hd hw hxe Y X c hX hc]
      have := ih hxr
      simp only [eventsContrib] at this
      rw [this]

/-- The decoder output as the total contribution of all pixel events,
for any downsampling factor, on a well-formed raster. -/
theorem py_decode_eventsContrib (d maxChan width : ℕ)
    (lines : List (List PixelRec)) (i : ℕ) (hd : 0 < d)
    (hx : ∀ line ∈ lines, ∀ p ∈ line, p.x < width)
    (hnodup : ∀ line ∈ lines, (line.map PixelRec.x).Nodup) :
    py_decode d maxChan width lines i =
      eventsContrib d maxChan width (lineEvents 0 lines) i := by
  by_cases hd1 : d = 1
  · subst hd1
    rw [py_decode, decodeLines_eq_foldl_events,
      foldl_events_assign maxChan width (lineEvents 0 lines) _ i
        (pairwise_lineEvents maxChan width lines 0 hx hnodup)
        (fun _ _ _ _ => rfl)]
    omega
  · rw [py_decode, decodeLines_eq_foldl_events,
      foldl_events_add d maxChan width hd1 (lineEvents 0 lines) _ i]
    omega

/-- C3: on a raster whose height and width are exact multiples of `d`
(columns within the width, no duplicate column per line), decoding with
downsample 1 and block-summing `d`-by-`d` output cells equals decoding
with downsample `d`; in particular, on a 4-by-4 raster with one pulse at
channel 0 per pixel, `decode(d=2)` has shape `(2, 2, 1)` and every
output cell holds 4 at channel 0. -/
theorem C3_downsample_blocksum :
    (∀ (d maxChan width : ℕ) (lines : List (List PixelRec)),
      0 < d → d ∣ width → d ∣ lines.length →
      (∀ line ∈ lines, ∀ p ∈ line, p.x < width) →
      (∀ line ∈ lines, (line.map PixelRec.x).Nodup) →
      ∀ Y X c : ℕ, Y < lines.length / d → X < width / d → c < maxChan →
        (∑ dy in Finset.range d, ∑ dx in Finset.range d,
          py_decode 1 maxChan width lines
            (maxChan * ((X * d + dx) + width * (Y * d + dy)) + c)) =
        py_decode d maxChan width lines
          (maxChan * (X + width / d * Y) + c)) ∧
    (pyShapeReturned 4 4 2 1 = (2, 2, 1) ∧
      ∀ Y, Y < 2 → ∀ X, X < 2 →
        py_decode 2 1 4 lines4x4 (1 * (X + 2 * Y) + 0) = 4) := by
  constructor
  · intro d maxChan width lines hd hw hh hx hnodup Y X c hY hX hc
    have hxe : ∀ e ∈ lineEvents 0 lines, e.2.x < width := by
      intro e he
      obtain ⟨line, hl, hm⟩ := lineEvents_mem lines 0 e he
      exact hx line hl e.2 hm
    rw [Finset.sum_congr rfl fun dy _ => Finset.sum_congr rfl fun dx _ =>
      py_decode_eventsContrib 1 maxChan width lines _ one_pos hx hnodup]
    rw [py_decode_eventsContrib d maxChan width lines _ hd hx hnodup]
    exact eventsContrib_block_sum d maxChan width hd hw (lineEvents 0 lines)
      hxe Y X c hX hc
  · exact ⟨rfl, by decide⟩

/-- C3 witness: the block-sum identity applied to the 4-by-4 raster with
`d = 2` at output cell `(0, 0, 0)`. -/
theorem C3_downsample_blocksum_witness :
    ((0:ℕ) < 2 ∧ (2:ℕ) ∣ 4 ∧ (2:ℕ) ∣ lines4x4.length ∧
      (∀ line ∈ lines4x4, ∀ p ∈ line, p.x < 4) ∧
      (∀ line ∈ lines4x4, (line.map PixelRec.x).Nodup) ∧
      (0:ℕ) < lines4x4.length / 2 ∧ (0:ℕ) < 4 / 2 ∧ (0:ℕ) < 1) ∧
    (∑ dy in Finset.range 2, ∑ dx in Finset.range 2,
       py_decode 1 1 4 lines4x4 (1 * ((0 * 2 + dx) + 4 * (0 * 2 + dy)) + 0)) =
      py_decode 2 1 4 lines4x4 (1 * (0 + 4 / 2 * 0) + 0) :=
  ⟨⟨by decide, by decide, by decide, by decide, by decide, by decide,
    by decide, by decide⟩,
   C3_downsample_blocksum.1 2 1 4 lines4x4 (by decide) (by decide) (by decide)
     (by decide) (by decide) 0 0 0 (by decide) (by decide) (by decide)⟩

end BcfHype
